import Mathlib

/-!
# Verification of the Nexus-PhotoShop bounded local image store (`app.py`)

Shallow embedding of the storage logic of `app.py`.  The upload directory is
modelled as a list of file entries in directory-enumeration (`os.listdir`)
order; Python strings are modelled as `List Char`.  Library calls whose
behaviour the claims do not depend on in detail (`base64.b64decode`,
`PIL.Image.open` + re-encode) are passed in as oracle functions, so every
theorem is quantified over all possible behaviours of those libraries.
`os.remove` during cleanup may fail (the file may be locked or already gone);
this is modelled by a `removeOk` oracle saying which removals succeed.
-/

namespace NexusStore

/-- Python strings, modelled as lists of characters. -/
abbrev Str := List Char

/-- Decoded binary payloads (contents are irrelevant to the claims). -/
abbrev Bytes := List Nat

/-- One entry of the upload directory together with its filesystem metadata,
as observed by `os.listdir` / `os.path.getmtime` / `os.path.getsize`. -/
structure FileEntry where
  name : Str
  mtime : Nat
  size : Nat
deriving DecidableEq, Repr

/-- The upload directory: entries in `os.listdir` enumeration order. -/
abbrev Store := List FileEntry

/-- `app.config['MAX_IMAGES'] = 100`. -/
def MAX_IMAGES : Nat := 100

/-- `app.config['ALLOWED_EXTENSIONS'] = {'png', 'jpg', 'jpeg', 'gif', 'bmp'}`. -/
def ALLOWED_EXTENSIONS : List Str :=
  [['p','n','g'], ['j','p','g'], ['j','p','e','g'], ['g','i','f'], ['b','m','p']]

/-- `filename.rsplit('.', 1)[1]`: the suffix after the last `'.'`
(meaningful when the name contains a dot). -/
def afterLastDot (s : Str) : Str :=
  (s.reverse.takeWhile (fun c => c ≠ '.')).reverse

/-- Python `str.lower`, restricted to the characters that occur here. -/
def pyLower (s : Str) : Str := s.map Char.toLower

/-- `allowed_file` (app.py:28-31):
`'.' in filename and filename.rsplit('.', 1)[1].lower() in ALLOWED_EXTENSIONS`. -/
def allowed_file (filename : Str) : Bool :=
  filename.contains '.' && ALLOWED_EXTENSIONS.contains (pyLower (afterLastDot filename))

/-- The entries of the directory with an allowed extension: exactly the files
every scan in `app.py` (`cleanup_old_images`, `get_storage_info`,
`list_images`) iterates over. -/
def imagesOf (st : Store) : Store :=
  st.filter (fun f => allowed_file f.name)

/-- The number of stored images (allowed-extension entries). -/
def allowedCount (st : Store) : Nat := (imagesOf st).length

/-- No two directory entries share a name (true of any real directory). -/
def nodupNames (st : Store) : Prop := (st.map (fun f => f.name)).Nodup

instance (st : Store) : Decidable (nodupNames st) :=
  inferInstanceAs (Decidable ((st.map (fun f : FileEntry => f.name)).Nodup))

/-- Result record of `get_storage_info` (app.py:100-117); the float field
`total_size_mb` is omitted. `remaining_slots` is `max(0, MAX_IMAGES - count)`. -/
structure StorageInfo where
  total_images : Nat
  total_size_bytes : Nat
  max_images : Nat
  remaining_slots : Int
deriving DecidableEq, Repr

/-- `get_storage_info` (app.py:100-117). -/
def get_storage_info (st : Store) : StorageInfo :=
  let imgs := imagesOf st
  { total_images := imgs.length
    total_size_bytes := (imgs.map (fun f => f.size)).sum
    max_images := MAX_IMAGES
    remaining_slots := max 0 ((MAX_IMAGES : Int) - (imgs.length : Int)) }

/-- Ordering key of `images.sort(key=lambda x: x[1])`: modification time. -/
def mtLE (a b : Str × Nat) : Prop := a.2 ≤ b.2

instance : DecidableRel mtLE := fun a b => Nat.decLe a.2 b.2

instance : IsTotal (Str × Nat) mtLE := ⟨fun a b => Nat.le_total a.2 b.2⟩

instance : IsTrans (Str × Nat) mtLE := ⟨fun _ _ _ h h' => Nat.le_trans h h'⟩

/-- The `(filepath, modified_time)` pairs collected by `cleanup_old_images`
(app.py:36-41), in `os.listdir` order. -/
def inventoryPairs (st : Store) : List (Str × Nat) :=
  (imagesOf st).map (fun f => (f.name, f.mtime))

/-- `images.sort(key=lambda x: x[1])` (app.py:44): Python's sort is stable, and
a stable sort by a key is uniquely determined by key and input order, so the
stable `insertionSort` models it exactly. -/
def sortedInventory (st : Store) : List (Str × Nat) :=
  (inventoryPairs st).insertionSort mtLE

/-- The files `cleanup_old_images` attempts to delete (app.py:47-50): the first
`len(images) - MAX_IMAGES` entries of the sorted inventory when over the limit,
nothing otherwise. -/
def evictionCandidates (st : Store) : List (Str × Nat) :=
  if MAX_IMAGES < (sortedInventory st).length then
    (sortedInventory st).take ((sortedInventory st).length - MAX_IMAGES)
  else []

/-- Outcome of `cleanup_old_images`: the directory afterwards, the entries whose
`os.remove` ran and succeeded, and whether the `except` branch logged an error. -/
structure CleanupResult where
  store : Store
  removed : List (Str × Nat)
  errorLogged : Bool
deriving DecidableEq, Repr

/-- The removals of app.py:49-50 that actually happen.  The `try` block wraps
the whole removal loop, so the first failing `os.remove` raises and the
remaining candidates are skipped: what is removed is exactly the longest
prefix of the candidate list on which `os.remove` succeeds. -/
def removedOf (st : Store) (removeOk : Str → Bool) : List (Str × Nat) :=
  (evictionCandidates st).takeWhile (fun p => removeOk p.1)

/-- `cleanup_old_images` (app.py:33-54).  `removeOk` says which `os.remove`
calls succeed; a failing removal raises, the exception is caught by the
`except` branch (app.py:53-54) and logged, and the function returns. -/
def cleanup_old_images (st : Store) (removeOk : Str → Bool) : CleanupResult :=
  { store := st.filter (fun f => !((removedOf st removeOk).any (fun p => p.1 == f.name)))
    removed := removedOf st removeOk
    errorLogged := decide ((removedOf st removeOk).length < (evictionCandidates st).length) }

/-- Writing `image.save(filepath, 'PNG', ...)`: creates the file, or overwrites
it (fresh size and mtime) if the name already exists. -/
def writeFile (st : Store) (fn : Str) (size mtime : Nat) : Store :=
  st.filter (fun f => !(f.name == fn)) ++ [⟨fn, mtime, size⟩]

/-- Python `str.split(sep)` for a one-character separator:
`pySplit ',' "a,b"` is `["a", "b"]`, and the empty string splits to `[""]`. -/
def pySplit (sep : Char) : Str → List Str
  | [] => [[]]
  | c :: rest =>
    if c = sep then [] :: pySplit sep rest
    else
      match pySplit sep rest with
      | [] => [[c]]
      | h :: t => (c :: h) :: t

/-- The string literal `'data:image'` of app.py:62. -/
def dataImagePrefix : Str := ['d','a','t','a',':','i','m','a','g','e']

/-- The data-URL stripping step of `save_image_locally` (app.py:61-64):
if the payload starts with `'data:image'`, replace it by `split(',')[1]`.
Indexing `[1]` raises `IndexError` when there is no comma; the surrounding
`try` catches it, so the step yields `none` in that case. -/
def stripPayload (s : Str) : Option Str :=
  if dataImagePrefix.isPrefixOf s then
    let parts := pySplit ',' s
    if 2 ≤ parts.length then some (parts.getD 1 []) else none
  else some s

/-- Which step of `save_image_locally` raised the exception that the `except`
branch (app.py:93-98) turned into a failure result. -/
inductive SaveErr where
  | indexError
  | invalidEncoding
  | unsupportedFormat
deriving DecidableEq, Repr

/-- Outcome of `save_image_locally`: on success the filename and the on-disk
size of the written PNG, on failure the error (HTTP layer maps it to 400). -/
inductive LocalResult where
  | success (filename : Str) (size : Nat)
  | failure (e : SaveErr)
deriving DecidableEq, Repr

/-- The tail of `save_image_locally` after stripping (app.py:66-92): base64
decoding, PIL parsing/normalising/re-encoding (the `pil` oracle returns the
size of the PNG the image re-encodes to), the write, and the cleanup pass. -/
def afterDecode (st : Store) (decoded : Option Bytes) (pil : Bytes → Option Nat)
    (fn : Str) (mt : Nat) (removeOk : Str → Bool) : Store × LocalResult :=
  match decoded with
  | none => (st, .failure .invalidEncoding)
  | some bytes =>
    match pil bytes with
    | none => (st, .failure .unsupportedFormat)
    | some pngSize =>
      let st1 := writeFile st fn pngSize mt
      let st2 := (cleanup_old_images st1 removeOk).store
      (st2, .success fn pngSize)

/-- `save_image_locally` (app.py:56-98) for a string payload: strip an optional
data-URL prefix, base64-decode (oracle `b64`), validate/normalise with PIL
(oracle `pil`), write the PNG, then run `cleanup_old_images`. Every failure is
caught by the `except` branch before any file is written. -/
def save_image_locally (st : Store) (imageData : Str) (b64 : Str → Option Bytes)
    (pil : Bytes → Option Nat) (fn : Str) (mt : Nat) (removeOk : Str → Bool) :
    Store × LocalResult :=
  match stripPayload imageData with
  | none => (st, .failure .indexError)
  | some data => afterDecode st (b64 data) pil fn mt removeOk

/-- Response of the `/save` endpoint, with the HTTP status carried alongside. -/
inductive SaveResp where
  | capacityExceeded
  | saved (filename : Str) (size : Nat)
  | saveFailed (e : SaveErr)
deriving DecidableEq, Repr

/-- Whether a `/save` response is the 201 success. -/
def SaveResp.isSaved : SaveResp → Bool
  | .saved _ _ => true
  | _ => false

/-- `save_image` (app.py:137-163), JSON/base64 ingestion path: reject with a
400 if the current inventory count already reaches `MAX_IMAGES`, otherwise run
`save_image_locally` on the payload with the freshly generated filename `fn`
(`nexus_edit_<timestamp>_<uuid8>.png` in the code; here a parameter). -/
def save_image (st : Store) (imageData : Str) (b64 : Str → Option Bytes)
    (pil : Bytes → Option Nat) (fn : Str) (mt : Nat) (removeOk : Str → Bool) :
    Store × SaveResp × Nat :=
  if MAX_IMAGES ≤ (get_storage_info st).total_images then
    (st, .capacityExceeded, 400)
  else
    match save_image_locally st imageData b64 pil fn mt removeOk with
    | (st', .success f s) => (st', .saved f s, 201)
    | (st', .failure e) => (st', .saveFailed e, 400)

/-- One request to `/save`: the payload plus the generated filename and the
mtime the filesystem stamps on the written file. -/
structure SaveInput where
  imageData : Str
  filename : Str
  mtime : Nat

/-- States and responses along a sequence of `/save` calls executed
sequentially (no interleaving), one entry per call. -/
def saveTrace (b64 : Str → Option Bytes) (pil : Bytes → Option Nat)
    (removeOk : Str → Bool) : Store → List SaveInput → List (Store × SaveResp)
  | _, [] => []
  | st, i :: is =>
    let r := save_image st i.imageData b64 pil i.filename i.mtime removeOk
    (r.1, r.2.1) :: saveTrace b64 pil removeOk r.1 is

/-- Python's substring test `pat in s`. -/
def containsSub (pat : Str) : Str → Bool
  | [] => pat.isEmpty
  | c :: rest => pat.isPrefixOf (c :: rest) || containsSub pat rest

/-- The directory-traversal guard of `get_image`/`delete_image`
(app.py:240, 268): `'..' in filename or filename.startswith('/')`. -/
def unsafeName (filename : Str) : Bool :=
  containsSub ['.','.'] filename || (['/'] : Str).isPrefixOf filename

/-- Response of `GET /image/<filename>`. -/
inductive GetResp where
  | invalidFilename
  | notFound
  | fileContent (f : FileEntry)
deriving DecidableEq, Repr

/-- `get_image` (app.py:235-254): traversal guard, then existence check, then
`send_file` of the entry with that name; paired with the HTTP status. -/
def get_image (st : Store) (filename : Str) : GetResp × Nat :=
  if unsafeName filename then (.invalidFilename, 400)
  else
    match st.find? (fun f => f.name == filename) with
    | some f => (.fileContent f, 200)
    | none => (.notFound, 404)

/-- Response of `DELETE /image/<filename>`. -/
inductive DelResp where
  | invalidFilename
  | notFound
  | deleted
deriving DecidableEq, Repr

/-- `delete_image` (app.py:263-287): traversal guard, existence check, then
`os.remove`; returns the directory afterwards and the response with status. -/
def delete_image (st : Store) (filename : Str) : Store × DelResp × Nat :=
  if unsafeName filename then (st, .invalidFilename, 400)
  else if st.any (fun f => f.name == filename) then
    (st.filter (fun f => !(f.name == filename)), .deleted, 200)
  else (st, .notFound, 404)

/-- `cleanup_images`, the `POST /cleanup` endpoint (app.py:312-329): run
`cleanup_old_images`, then report the resulting usage summary. -/
def cleanup_images (st : Store) (removeOk : Str → Bool) : Store × StorageInfo :=
  let r := cleanup_old_images st removeOk
  (r.store, get_storage_info r.store)

/-! ### Concrete stores for witnesses and counterexamples -/

/-- Distinct short letter strings: one letter for `i < 26`, two letters after. -/
def natToChars (i : Nat) : Str :=
  if i < 26 then [Char.ofNat ('a'.toNat + i)]
  else [Char.ofNat ('a'.toNat + i / 26), Char.ofNat ('a'.toNat + i % 26)]

/-- The `i`-th test filename, an allowed `.png` name. -/
def mkName (i : Nat) : Str := natToChars i ++ ['.','p','n','g']

/-- A directory of `n` distinct PNG files with strictly increasing mtimes. -/
def mkFiles (n : Nat) : Store :=
  (List.range n).map (fun i => ⟨mkName i, i, 1⟩)

/-! ### Helper lemmas: counting, permutations, `Nodup` bookkeeping -/

lemma total_images_eq (st : Store) :
    (get_storage_info st).total_images = allowedCount st := rfl

lemma imagesOf_filter (st : Store) (q : FileEntry → Bool) :
    imagesOf (st.filter q) = (imagesOf st).filter q := by
  simp only [imagesOf, List.filter_filter]
  exact List.filter_congr (fun a _ => Bool.and_comm _ _)

lemma imagesOf_append (st st' : Store) :
    imagesOf (st ++ st') = imagesOf st ++ imagesOf st' := by
  simp [imagesOf]

lemma nodupNames_filter (st : Store) (q : FileEntry → Bool) (h : nodupNames st) :
    nodupNames (st.filter q) := by
  unfold nodupNames at h ⊢
  exact ((List.filter_sublist st : (st.filter q).Sublist st).map (fun f => f.name)).nodup h

lemma nodupNames_writeFile (st : Store) (fn : Str) (sz mt : Nat)
    (h : nodupNames st) : nodupNames (writeFile st fn sz mt) := by
  unfold nodupNames writeFile
  rw [List.map_append]
  refine List.Nodup.append (nodupNames_filter st _ h) (List.nodup_singleton _) ?_
  intro a ha hb
  simp only [List.map_cons, List.map_nil, List.mem_singleton] at hb
  subst hb
  rcases List.mem_map.mp ha with ⟨g, hg, hga⟩
  rcases List.mem_filter.mp hg with ⟨_, hgne⟩
  simp only [Bool.not_eq_eq_eq_not, Bool.not_true, beq_eq_false_iff_ne, ne_eq] at hgne
  exact hgne hga

lemma allowedCount_filter_le (st : Store) (q : FileEntry → Bool) :
    allowedCount (st.filter q) ≤ allowedCount st := by
  unfold allowedCount
  rw [imagesOf_filter]
  exact List.length_filter_le _ _

lemma allowedCount_writeFile_le (st : Store) (fn : Str) (sz mt : Nat) :
    allowedCount (writeFile st fn sz mt) ≤ allowedCount st + 1 := by
  have h1 : allowedCount (st.filter (fun f => !(f.name == fn))) ≤ allowedCount st :=
    allowedCount_filter_le st _
  have h2 : (imagesOf [(⟨fn, mt, sz⟩ : FileEntry)]).length ≤ 1 := by
    simp only [imagesOf, List.filter_cons, List.filter_nil]
    cases h : allowed_file fn <;> simp [h]
  unfold allowedCount at h1 ⊢
  unfold writeFile
  rw [imagesOf_append, List.length_append]
  omega

lemma length_filter_ne (A : Store) (n : Str) (hA : nodupNames A)
    (hn : n ∈ A.map (fun f => f.name)) :
    (A.filter (fun f => decide (f.name ≠ n))).length + 1 = A.length := by
  induction A with
  | nil => simp at hn
  | cons f A ih =>
    unfold nodupNames at hA
    rw [List.map_cons, List.nodup_cons] at hA
    obtain ⟨hfn, hA'⟩ := hA
    by_cases hf : f.name = n
    · subst hf
      have hall : A.filter (fun g => decide (g.name ≠ f.name)) = A := by
        refine List.filter_eq_self.mpr (fun g hg => ?_)
        simp only [decide_eq_true_eq]
        intro hgf
        exact hfn (hgf ▸ List.mem_map.mpr ⟨g, hg, rfl⟩)
      have hdrop : List.filter (fun g => decide (g.name ≠ f.name)) (f :: A) = A := by
        rw [List.filter_cons, if_neg (by simp), hall]
      rw [hdrop, List.length_cons]
    · have hn' : n ∈ A.map (fun f => f.name) := by
        rcases List.mem_map.mp hn with ⟨g, hg, hgn⟩
        rcases List.mem_cons.mp hg with hgf | hgA
        · exact absurd (hgf ▸ hgn) hf
        · exact List.mem_map.mpr ⟨g, hgA, hgn⟩
      have := ih (by exact hA') hn'
      simp only [List.filter_cons, decide_eq_true_eq]
      rw [if_pos hf]
      simp only [List.length_cons]
      omega

lemma length_filter_not_mem (ns : List Str) : ∀ (A : Store), nodupNames A →
    ns.Nodup → (∀ n ∈ ns, n ∈ A.map (fun f => f.name)) →
    (A.filter (fun f => decide (f.name ∉ ns))).length + ns.length = A.length := by
  induction ns with
  | nil => intro A _ _ _; simp
  | cons n ns ih =>
    intro A hA hns hmem
    rw [List.nodup_cons] at hns
    obtain ⟨hn_ns, hns'⟩ := hns
    have hn : n ∈ A.map (fun f => f.name) := hmem n (List.mem_cons_self _ _)
    have hsplit : A.filter (fun f => decide (f.name ∉ n :: ns))
        = (A.filter (fun f => decide (f.name ≠ n))).filter (fun f => decide (f.name ∉ ns)) := by
      rw [List.filter_filter]
      refine (List.filter_congr (fun a _ => ?_)).symm
      by_cases h1 : a.name = n <;> by_cases h2 : a.name ∈ ns <;>
        simp [h1, h2, List.mem_cons]
    have hA' : nodupNames (A.filter (fun f => decide (f.name ≠ n))) :=
      nodupNames_filter _ _ hA
    have hmem' : ∀ m ∈ ns,
        m ∈ (A.filter (fun f => decide (f.name ≠ n))).map (fun f => f.name) := by
      intro m hm
      rcases List.mem_map.mp (hmem m (List.mem_cons_of_mem _ hm)) with ⟨g, hg, hgm⟩
      have hgmem : g ∈ A.filter (fun f => decide (f.name ≠ n)) := by
        refine List.mem_filter.mpr ⟨hg, ?_⟩
        simp only [decide_eq_true_eq]
        intro hgn
        exact hn_ns ((hgn ▸ hgm) ▸ hm)
      exact List.mem_map.mpr ⟨g, hgmem, hgm⟩
    have h1 := length_filter_ne A n hA hn
    have h2 := ih _ hA' hns' hmem'
    rw [hsplit, List.length_cons]
    omega

/-! ### Helper lemmas about the cleanup pass -/

lemma sortedInventory_perm (st : Store) :
    (sortedInventory st).Perm (inventoryPairs st) :=
  List.perm_insertionSort mtLE _

lemma sortedInventory_length (st : Store) :
    (sortedInventory st).length = allowedCount st := by
  rw [(sortedInventory_perm st).length_eq]
  unfold inventoryPairs allowedCount
  rw [List.length_map]

lemma sortedInventory_sorted (st : Store) : List.Sorted mtLE (sortedInventory st) :=
  List.sorted_insertionSort mtLE _

lemma inventoryPairs_fst (st : Store) :
    (inventoryPairs st).map Prod.fst = (imagesOf st).map (fun f => f.name) := by
  unfold inventoryPairs
  rw [List.map_map]
  rfl

lemma candidates_sublist (st : Store) :
    (evictionCandidates st).Sublist (sortedInventory st) := by
  unfold evictionCandidates
  split
  · exact List.take_sublist _ _
  · exact List.nil_sublist _

lemma removed_eq_takeWhile (st : Store) (removeOk : Str → Bool) :
    (cleanup_old_images st removeOk).removed
      = (evictionCandidates st).takeWhile (fun p => removeOk p.1) := rfl

lemma removed_sublist (st : Store) (removeOk : Str → Bool) :
    ((cleanup_old_images st removeOk).removed).Sublist (evictionCandidates st) := by
  rw [removed_eq_takeWhile]
  exact List.takeWhile_sublist _

lemma sorted_names_nodup (st : Store) (h : nodupNames st) :
    ((sortedInventory st).map Prod.fst).Nodup := by
  have hperm := (sortedInventory_perm st).map Prod.fst
  rw [hperm.nodup_iff, inventoryPairs_fst]
  exact nodupNames_filter st _ h

lemma removed_names_nodup (st : Store) (removeOk : Str → Bool) (h : nodupNames st) :
    (((cleanup_old_images st removeOk).removed).map Prod.fst).Nodup :=
  (((removed_sublist st removeOk).trans (candidates_sublist st)).map Prod.fst).nodup
    (sorted_names_nodup st h)

lemma removed_names_mem (st : Store) (removeOk : Str → Bool) :
    ∀ n ∈ ((cleanup_old_images st removeOk).removed).map Prod.fst,
      n ∈ (imagesOf st).map (fun f => f.name) := by
  intro n hn
  have hsub := ((removed_sublist st removeOk).trans (candidates_sublist st)).map Prod.fst
  have := hsub.mem hn
  rw [((sortedInventory_perm st).map Prod.fst).mem_iff, inventoryPairs_fst] at this
  exact this

lemma notAny_eq (removed : List (Str × Nat)) (x : Str) :
    (!(removed.any (fun p => p.1 == x))) = decide (x ∉ removed.map Prod.fst) := by
  by_cases hx : x ∈ removed.map Prod.fst
  · rcases List.mem_map.mp hx with ⟨p, hp, hpx⟩
    have : removed.any (fun p => p.1 == x) = true :=
      List.any_eq_true.mpr ⟨p, hp, by simp [hpx]⟩
    simp [this, hx]
  · have : removed.any (fun p => p.1 == x) = false := by
      rw [List.any_eq_false]
      intro p hp
      simp only [beq_iff_eq]
      intro hpx
      exact hx (List.mem_map.mpr ⟨p, hp, hpx⟩)
    simp [this, hx]

lemma cleanup_store_eq_filter (st : Store) (removeOk : Str → Bool) :
    (cleanup_old_images st removeOk).store
      = st.filter (fun f =>
          decide (f.name ∉ ((cleanup_old_images st removeOk).removed).map Prod.fst)) := by
  unfold cleanup_old_images
  exact List.filter_congr (fun f _ => notAny_eq _ _)

lemma cleanup_noop_of_le (st : Store) (removeOk : Str → Bool)
    (h : allowedCount st ≤ MAX_IMAGES) :
    (cleanup_old_images st removeOk).store = st
      ∧ (cleanup_old_images st removeOk).removed = [] := by
  have hcand : evictionCandidates st = [] := by
    unfold evictionCandidates
    rw [if_neg]
    rw [sortedInventory_length]
    omega
  have hrem : removedOf st removeOk = [] := by
    unfold removedOf
    rw [hcand]
    rfl
  constructor
  · unfold cleanup_old_images
    rw [hrem]
    simp
  · unfold cleanup_old_images
    exact hrem

lemma takeWhile_all (l : List (Str × Nat)) (removeOk : Str → Bool)
    (hok : ∀ n, removeOk n = true) : l.takeWhile (fun p => removeOk p.1) = l :=
  List.takeWhile_eq_self_iff.mpr (fun x _ => hok x.1)

lemma removed_eq_candidates (st : Store) (removeOk : Str → Bool)
    (hok : ∀ n, removeOk n = true) :
    (cleanup_old_images st removeOk).removed = evictionCandidates st := by
  rw [removed_eq_takeWhile]
  exact takeWhile_all _ _ hok

lemma candidates_length_of_gt (st : Store) (h : MAX_IMAGES < allowedCount st) :
    (evictionCandidates st).length = allowedCount st - MAX_IMAGES := by
  unfold evictionCandidates
  rw [if_pos (by rw [sortedInventory_length]; omega)]
  rw [List.length_take, sortedInventory_length]
  omega

lemma cleanup_count (st : Store) (removeOk : Str → Bool) (h : nodupNames st)
    (hok : ∀ n, removeOk n = true) :
    allowedCount (cleanup_old_images st removeOk).store
      = min (allowedCount st) MAX_IMAGES := by
  by_cases hle : allowedCount st ≤ MAX_IMAGES
  · rw [(cleanup_noop_of_le st removeOk hle).1]
    exact (min_eq_left hle).symm
  · push_neg at hle
    have hA : nodupNames (imagesOf st) := nodupNames_filter st _ h
    have hns := removed_names_nodup st removeOk h
    have hmem := removed_names_mem st removeOk
    have hkey := length_filter_not_mem
      (((cleanup_old_images st removeOk).removed).map Prod.fst) (imagesOf st) hA hns hmem
    have hlen : allowedCount (cleanup_old_images st removeOk).store
        = ((imagesOf st).filter (fun f =>
            decide (f.name ∉ ((cleanup_old_images st removeOk).removed).map Prod.fst))).length := by
      rw [cleanup_store_eq_filter]
      unfold allowedCount
      rw [imagesOf_filter]
    have hremlen : ((cleanup_old_images st removeOk).removed).length
        = allowedCount st - MAX_IMAGES := by
      rw [removed_eq_candidates st removeOk hok, candidates_length_of_gt st hle]
    have hcnt : (imagesOf st).length = allowedCount st := rfl
    rw [List.length_map, hremlen] at hkey
    rw [hlen]
    omega

lemma cleanup_count_le (st : Store) (removeOk : Str → Bool) (h : nodupNames st)
    (hok : ∀ n, removeOk n = true) :
    allowedCount (cleanup_old_images st removeOk).store ≤ MAX_IMAGES := by
  rw [cleanup_count st removeOk h hok]
  exact min_le_right _ _

lemma nodupNames_cleanup (st : Store) (removeOk : Str → Bool) (h : nodupNames st) :
    nodupNames (cleanup_old_images st removeOk).store := by
  rw [cleanup_store_eq_filter]
  exact nodupNames_filter st _ h

/-! ### Helper lemmas about `/save` -/

lemma save_result (st : Store) (imageData : Str) (b64 : Str → Option Bytes)
    (pil : Bytes → Option Nat) (fn : Str) (mt : Nat) (removeOk : Str → Bool) :
    ((save_image st imageData b64 pil fn mt removeOk).2.1.isSaved = false
      ∧ (save_image st imageData b64 pil fn mt removeOk).1 = st)
    ∨ ((save_image st imageData b64 pil fn mt removeOk).2.1.isSaved = true
      ∧ ∃ sz, (save_image st imageData b64 pil fn mt removeOk).1
          = (cleanup_old_images (writeFile st fn sz mt) removeOk).store) := by
  by_cases hcap : MAX_IMAGES ≤ (get_storage_info st).total_images
  · left
    simp [save_image, hcap, SaveResp.isSaved]
  · cases hstrip : stripPayload imageData with
    | none =>
      left
      simp [save_image, save_image_locally, hcap, hstrip, SaveResp.isSaved]
    | some data =>
      cases hb : b64 data with
      | none =>
        left
        simp [save_image, save_image_locally, afterDecode, hcap, hstrip, hb, SaveResp.isSaved]
      | some bytes =>
        cases hp : pil bytes with
        | none =>
          left
          simp [save_image, save_image_locally, afterDecode, hcap, hstrip, hb, hp,
            SaveResp.isSaved]
        | some sz =>
          right
          constructor
          · simp [save_image, save_image_locally, afterDecode, hcap, hstrip, hb, hp,
              SaveResp.isSaved]
          · exact ⟨sz, by
              simp [save_image, save_image_locally, afterDecode, hcap, hstrip, hb, hp]⟩

lemma save_saved_count (st : Store) (imageData : Str) (b64 : Str → Option Bytes)
    (pil : Bytes → Option Nat) (fn : Str) (mt : Nat) (removeOk : Str → Bool)
    (h : nodupNames st) (hok : ∀ n, removeOk n = true)
    (hsaved : (save_image st imageData b64 pil fn mt removeOk).2.1.isSaved = true) :
    allowedCount (save_image st imageData b64 pil fn mt removeOk).1 ≤ MAX_IMAGES := by
  rcases save_result st imageData b64 pil fn mt removeOk with ⟨hf, _⟩ | ⟨_, sz, heq⟩
  · rw [hsaved] at hf
    exact absurd hf (by simp)
  · rw [heq]
    exact cleanup_count_le _ _ (nodupNames_writeFile st fn sz mt h) hok

lemma save_preserves_nodup (st : Store) (imageData : Str) (b64 : Str → Option Bytes)
    (pil : Bytes → Option Nat) (fn : Str) (mt : Nat) (removeOk : Str → Bool)
    (h : nodupNames st) :
    nodupNames (save_image st imageData b64 pil fn mt removeOk).1 := by
  rcases save_result st imageData b64 pil fn mt removeOk with ⟨_, heq⟩ | ⟨_, sz, heq⟩
  · rw [heq]; exact h
  · rw [heq]
    exact nodupNames_cleanup _ _ (nodupNames_writeFile st fn sz mt h)

/-! ### The usage summary as the spec words it (for the refinement check C8) -/

/-- The usage summary exactly as §4.5 of the spec words it: `count` and
`totalSizeBytes` computed over the entries of a fresh scan that carry an
allowed extension, `maxImages`, and `remainingSlots = max(0, maxImages -
count)`.  Written independently of `get_storage_info` (count via `countP`,
size via a fold) to be compared against it. -/
def usageSummary_spec (st : Store) : StorageInfo :=
  { total_images := st.countP (fun f => allowed_file f.name)
    total_size_bytes :=
      st.foldr (fun f acc => if allowed_file f.name then f.size + acc else acc) 0
    max_images := MAX_IMAGES
    remaining_slots :=
      max 0 ((MAX_IMAGES : Int) - (st.countP (fun f => allowed_file f.name) : Int)) }

lemma sum_sizes_foldr (st : Store) :
    ((imagesOf st).map (fun f => f.size)).sum
      = st.foldr (fun f acc => if allowed_file f.name then f.size + acc else acc) 0 := by
  induction st with
  | nil => rfl
  | cons f st ih =>
    simp only [imagesOf, List.filter_cons, List.foldr_cons] at *
    cases h : allowed_file f.name <;> simp [h, ih]

/-! ### Claim theorems -/

/-- C8: Usage summary correctness: for every directory state, the summary the
code computes (`get_storage_info`, a fresh full scan — it is a function of the
current directory contents alone, with no cached counter in sight) equals the
summary the spec describes: count and total size over the allowed-extension
entries, `maxImages`, and `remainingSlots = max(0, maxImages - count)`. -/
theorem usage_summary_correct : ∀ st : Store, get_storage_info st = usageSummary_spec st := by
  intro st
  have hcount : (imagesOf st).length = st.countP (fun f => allowed_file f.name) :=
    (List.countP_eq_length_filter _ _).symm
  unfold get_storage_info usageSummary_spec
  rw [StorageInfo.mk.injEq]
  exact ⟨hcount, sum_sizes_foldr st, rfl, by rw [hcount]⟩

/-- C4: Path-traversal rejection: any filename containing the substring `..`
or beginning with the path separator makes both `get_image` and `delete_image`
answer `InvalidFilename` with HTTP 400; the directory is left untouched (the
delete returns the state unchanged) and the result does not depend on the
directory contents at all, so no file inside or outside the storage directory
is read or deleted. -/
theorem traversal_rejection (st : Store) (filename : Str)
    (h : containsSub ['.','.'] filename = true
      ∨ (['/'] : Str).isPrefixOf filename = true) :
    get_image st filename = (.invalidFilename, 400)
    ∧ delete_image st filename = (st, .invalidFilename, 400) := by
  have hu : unsafeName filename = true := by
    unfold unsafeName
    rcases h with h | h <;> simp [h]
  constructor
  · unfold get_image
    rw [if_pos hu]
  · unfold delete_image
    rw [if_pos hu]

/-- C4 witness: both `get("../etc/passwd")` and `get("/etc/passwd")` (and the
corresponding deletes) are rejected on a concrete two-file store. -/
theorem traversal_rejection_witness :
    (containsSub ['.','.'] ("../etc/passwd".toList) = true
      ∨ (['/'] : Str).isPrefixOf ("../etc/passwd".toList) = true)
    ∧ (get_image (mkFiles 2) ("../etc/passwd".toList) = (.invalidFilename, 400)
      ∧ delete_image (mkFiles 2) ("../etc/passwd".toList)
          = (mkFiles 2, .invalidFilename, 400))
    ∧ (get_image (mkFiles 2) ("/etc/passwd".toList) = (.invalidFilename, 400)
      ∧ delete_image (mkFiles 2) ("/etc/passwd".toList)
          = (mkFiles 2, .invalidFilename, 400)) :=
  ⟨Or.inl (by decide),
   traversal_rejection (mkFiles 2) ("../etc/passwd".toList) (Or.inl (by decide)),
   traversal_rejection (mkFiles 2) ("/etc/passwd".toList) (Or.inr (by decide))⟩

/-- C5: Capacity precheck: when the current inventory count already reaches
`MAX_IMAGES`, `/save` answers the `CapacityExceeded` error with HTTP 400, the
directory is unchanged, and the result is the same for every possible
behaviour of the base64 and image decoders — so no decode is attempted. -/
theorem capacity_precheck (st : Store) (imageData : Str) (b64 : Str → Option Bytes)
    (pil : Bytes → Option Nat) (fn : Str) (mt : Nat) (removeOk : Str → Bool)
    (h : MAX_IMAGES ≤ (get_storage_info st).total_images) :
    save_image st imageData b64 pil fn mt removeOk = (st, .capacityExceeded, 400)
    ∧ get_storage_info (save_image st imageData b64 pil fn mt removeOk).1
        = get_storage_info st := by
  have heq : save_image st imageData b64 pil fn mt removeOk
      = (st, .capacityExceeded, 400) := by
    unfold save_image
    rw [if_pos h]
  exact ⟨heq, by rw [heq]⟩

/-- C5 witness: a store of exactly 100 images rejects a further save. -/
theorem capacity_precheck_witness :
    MAX_IMAGES ≤ (get_storage_info (mkFiles 100)).total_images
    ∧ (save_image (mkFiles 100) (['Q']) (fun _ => some []) (fun _ => some 7)
        (mkName 200) 555 (fun _ => true) = (mkFiles 100, .capacityExceeded, 400)
      ∧ get_storage_info (save_image (mkFiles 100) (['Q']) (fun _ => some [])
          (fun _ => some 7) (mkName 200) 555 (fun _ => true)).1
          = get_storage_info (mkFiles 100)) :=
  ⟨by decide,
   capacity_precheck (mkFiles 100) (['Q']) (fun _ => some []) (fun _ => some 7)
     (mkName 200) 555 (fun _ => true) (by decide)⟩

/-- C6: Decode-failure atomicity: if the store is below capacity (so the
precheck passes) and the base64 decode of the (possibly data-URL-stripped)
payload fails, `/save` answers a 400 whose error kind is `InvalidEncoding`,
no file is created (the directory is returned unchanged), and the usage
summary before and after the failed call is identical. -/
theorem decode_failure_atomic (st : Store) (imageData : Str) (b64 : Str → Option Bytes)
    (pil : Bytes → Option Nat) (fn : Str) (mt : Nat) (removeOk : Str → Bool)
    (hcap : (get_storage_info st).total_images < MAX_IMAGES)
    (data : Str) (hstrip : stripPayload imageData = some data)
    (hb : b64 data = none) :
    save_image st imageData b64 pil fn mt removeOk
      = (st, .saveFailed .invalidEncoding, 400)
    ∧ get_storage_info (save_image st imageData b64 pil fn mt removeOk).1
        = get_storage_info st := by
  have hcap' : ¬ MAX_IMAGES ≤ (get_storage_info st).total_images := by omega
  have heq : save_image st imageData b64 pil fn mt removeOk
      = (st, .saveFailed .invalidEncoding, 400) := by
    simp [save_image, save_image_locally, afterDecode, hcap', hstrip, hb]
  exact ⟨heq, by rw [heq]⟩

/-- C6 witness: a malformed bare base64 payload on a three-file store. -/
theorem decode_failure_atomic_witness :
    ((get_storage_info (mkFiles 3)).total_images < MAX_IMAGES
      ∧ stripPayload (['!']) = some (['!']))
    ∧ (save_image (mkFiles 3) (['!']) (fun _ => none) (fun _ => some 7)
        (mkName 200) 9 (fun _ => true) = (mkFiles 3, .saveFailed .invalidEncoding, 400)
      ∧ get_storage_info (save_image (mkFiles 3) (['!']) (fun _ => none)
          (fun _ => some 7) (mkName 200) 9 (fun _ => true)).1
          = get_storage_info (mkFiles 3)) :=
  ⟨⟨by decide, by decide⟩,
   decode_failure_atomic (mkFiles 3) (['!']) (fun _ => none) (fun _ => some 7)
     (mkName 200) 9 (fun _ => true) (by decide) (['!']) (by decide) rfl⟩

lemma trace_saved_count (b64 : Str → Option Bytes) (pil : Bytes → Option Nat)
    (removeOk : Str → Bool) (hok : ∀ n, removeOk n = true) :
    ∀ (inputs : List SaveInput) (st : Store), nodupNames st →
      ∀ p ∈ saveTrace b64 pil removeOk st inputs, p.2.isSaved = true →
        allowedCount p.1 ≤ MAX_IMAGES := by
  intro inputs
  induction inputs with
  | nil =>
    intro st _ p hp
    simp [saveTrace] at hp
  | cons i is ih =>
    intro st h p hp hsaved
    simp only [saveTrace] at hp
    rcases List.mem_cons.mp hp with heq | htail
    · subst heq
      exact save_saved_count st i.imageData b64 pil i.filename i.mtime removeOk h hok hsaved
    · exact ih _ (save_preserves_nodup st i.imageData b64 pil i.filename i.mtime removeOk h)
        p htail hsaved

/-- C1: Capacity invariant: along every sequence of sequentially executed
`/save` calls starting from a duplicate-free directory (with eviction removals
succeeding), every state observed right after a completed save+evict cycle
(a 201 `saved` response) holds at most `MAX_IMAGES` allowed-extension images;
and the write step inside a save adds at most one entry to the image count, so
the transient overshoot between the write and the eviction step is at most
one. -/
theorem save_capacity_invariant (st : Store) (b64 : Str → Option Bytes)
    (pil : Bytes → Option Nat) (removeOk : Str → Bool) (inputs : List SaveInput)
    (h : nodupNames st) (hok : ∀ n, removeOk n = true) :
    (∀ p ∈ saveTrace b64 pil removeOk st inputs, p.2.isSaved = true →
      allowedCount p.1 ≤ MAX_IMAGES)
    ∧ (∀ (s : Store) (fn : Str) (sz mt : Nat),
      allowedCount (writeFile s fn sz mt) ≤ allowedCount s + 1) :=
  ⟨trace_saved_count b64 pil removeOk hok inputs st h,
   fun s fn sz mt => allowedCount_writeFile_le s fn sz mt⟩

/-- C1 witness: a concrete three-image store and a one-save sequence. -/
theorem save_capacity_invariant_witness :
    nodupNames (mkFiles 3)
    ∧ ((∀ p ∈ saveTrace (fun _ => some []) (fun _ => some 7) (fun _ => true)
          (mkFiles 3) [⟨['Q'], mkName 50, 77⟩], p.2.isSaved = true →
        allowedCount p.1 ≤ MAX_IMAGES)
      ∧ (∀ (s : Store) (fn : Str) (sz mt : Nat),
        allowedCount (writeFile s fn sz mt) ≤ allowedCount s + 1)) :=
  ⟨by decide,
   save_capacity_invariant (mkFiles 3) (fun _ => some []) (fun _ => some 7)
     (fun _ => true) [⟨['Q'], mkName 50, 77⟩] (by decide) (fun _ => rfl)⟩

/-- C7: Idempotent cleanup: calling the `/cleanup` endpoint twice in a row with
no intervening save leaves the directory of the first call untouched, removes
nothing the second time, and reports the identical usage summary both times
(removals succeeding, duplicate-free directory). -/
theorem cleanup_idempotent (st : Store) (removeOk : Str → Bool)
    (h : nodupNames st) (hok : ∀ n, removeOk n = true) :
    (cleanup_images (cleanup_images st removeOk).1 removeOk).1
        = (cleanup_images st removeOk).1
    ∧ (cleanup_images (cleanup_images st removeOk).1 removeOk).2
        = (cleanup_images st removeOk).2
    ∧ (cleanup_old_images (cleanup_images st removeOk).1 removeOk).removed = [] := by
  have hle : allowedCount (cleanup_old_images st removeOk).store ≤ MAX_IMAGES :=
    cleanup_count_le st removeOk h hok
  have hst1 : (cleanup_images st removeOk).1 = (cleanup_old_images st removeOk).store := rfl
  have hnoop := cleanup_noop_of_le (cleanup_old_images st removeOk).store removeOk hle
  refine ⟨?_, ?_, ?_⟩
  · show (cleanup_old_images (cleanup_images st removeOk).1 removeOk).store
        = (cleanup_images st removeOk).1
    rw [hst1, hnoop.1]
  · show get_storage_info (cleanup_old_images (cleanup_images st removeOk).1 removeOk).store
        = get_storage_info (cleanup_old_images st removeOk).store
    rw [hst1, hnoop.1]
  · rw [hst1]
    exact hnoop.2

/-- C7 witness: a 101-image store; the first cleanup evicts one image, the
second is a no-op with the same summary. -/
theorem cleanup_idempotent_witness :
    nodupNames (mkFiles 101)
    ∧ ((cleanup_images (cleanup_images (mkFiles 101) (fun _ => true)).1 (fun _ => true)).1
        = (cleanup_images (mkFiles 101) (fun _ => true)).1
      ∧ (cleanup_images (cleanup_images (mkFiles 101) (fun _ => true)).1 (fun _ => true)).2
          = (cleanup_images (mkFiles 101) (fun _ => true)).2
      ∧ (cleanup_old_images (cleanup_images (mkFiles 101) (fun _ => true)).1
          (fun _ => true)).removed = []) :=
  ⟨by decide,
   cleanup_idempotent (mkFiles 101) (fun _ => true) (by decide) (fun _ => rfl)⟩

/-! ### C2: eviction ordering -/

/-- Lexicographic strict order on strings (Python string comparison),
used only to express the tie-break the spec asserts. -/
def strLexLt : Str → Str → Bool
  | [], [] => false
  | [], _ :: _ => true
  | _ :: _, [] => false
  | a :: as, b :: bs => if a = b then strLexLt as bs else decide (a < b)

/-- The comparator §4.4 of the spec describes: modification time ascending,
ties broken by filename ascending. -/
def specLe (a b : Str × Nat) : Bool :=
  if a.2 = b.2 then !(strLexLt b.1 a.1) else decide (a.2 < b.2)

/-- The inventory sorted the way the spec words it (mtime, then filename),
to be compared with `sortedInventory`, which models the code's
`images.sort(key=lambda x: x[1])`. -/
def specSortedInventory (st : Store) : List (Str × Nat) :=
  (inventoryPairs st).insertionSort (fun a b => specLe a b = true)

/-- 101 images: the two oldest (`b.png` then `a.png`, in that directory
enumeration order) share modification time 0; 99 younger ones follow. -/
def tieStore : Store :=
  ⟨['b','.','p','n','g'], 0, 1⟩ :: ⟨['a','.','p','n','g'], 0, 1⟩
    :: (List.range 99).map (fun i => ⟨mkName (i + 2), i + 1, 1⟩)

/-- C2 counterexample: on `tieStore` the code evicts `b.png` — the mtime-tied
entry that comes first in directory enumeration order — while `a.png`, the
lexicographically smaller filename the spec's tie-break would evict first
(it heads the spec-ordered inventory), remains stored.  Ties are therefore
broken by enumeration order (Python's stable sort), not by filename. -/
theorem eviction_tiebreak_counterexample :
    allowedCount tieStore = 101
    ∧ (cleanup_old_images tieStore (fun _ => true)).removed
        = [(['b','.','p','n','g'], 0)]
    ∧ (specSortedInventory tieStore).take 1 = [(['a','.','p','n','g'], 0)]
    ∧ (⟨['a','.','p','n','g'], 0, 1⟩ : FileEntry)
        ∈ (cleanup_old_images tieStore (fun _ => true)).store := by
  refine ⟨by decide, by decide, by decide, by decide⟩

/-- C2 amended: when the inventory count exceeds the limit and removals
succeed (duplicate-free directory), eviction removes exactly `count - limit`
entries, every removed entry is at least as old as every image kept, and
exactly `MAX_IMAGES` images remain — but mtime ties are broken by directory
enumeration order (stable sort), not by filename. -/
theorem eviction_order_amended (st : Store) (removeOk : Str → Bool)
    (h : nodupNames st) (hok : ∀ n, removeOk n = true)
    (hover : MAX_IMAGES < allowedCount st) :
    ((cleanup_old_images st removeOk).removed).length = allowedCount st - MAX_IMAGES
    ∧ (∀ r ∈ (cleanup_old_images st removeOk).removed,
        ∀ f ∈ (cleanup_old_images st removeOk).store, allowed_file f.name = true →
          r.2 ≤ f.mtime)
    ∧ allowedCount (cleanup_old_images st removeOk).store = MAX_IMAGES := by
  have hrem := removed_eq_candidates st removeOk hok
  have hlen1 : ((cleanup_old_images st removeOk).removed).length
      = allowedCount st - MAX_IMAGES := by
    rw [hrem, candidates_length_of_gt st hover]
  have hcnt : allowedCount (cleanup_old_images st removeOk).store = MAX_IMAGES := by
    rw [cleanup_count st removeOk h hok]
    omega
  refine ⟨hlen1, ?_, hcnt⟩
  intro r hr f hf hall
  have hcand : evictionCandidates st
      = (sortedInventory st).take ((sortedInventory st).length - MAX_IMAGES) := by
    unfold evictionCandidates
    rw [if_pos (by rw [sortedInventory_length]; omega)]
  have hpw : List.Pairwise mtLE
      ((sortedInventory st).take ((sortedInventory st).length - MAX_IMAGES)
        ++ (sortedInventory st).drop ((sortedInventory st).length - MAX_IMAGES)) := by
    rw [List.take_append_drop]
    exact sortedInventory_sorted st
  have hcross := (List.pairwise_append.mp hpw).2.2
  have hrtake : r ∈ (sortedInventory st).take
      ((sortedInventory st).length - MAX_IMAGES) := by
    rw [← hcand, ← hrem]
    exact hr
  have hfpred : ∀ p ∈ (cleanup_old_images st removeOk).removed, p.1 ≠ f.name := by
    have hfm := hf
    rw [cleanup_store_eq_filter] at hfm
    have hmem2 := (List.mem_filter.mp hfm).2
    simp only [decide_eq_true_eq] at hmem2
    intro p hp hpn
    exact hmem2 (List.mem_map.mpr ⟨p, hp, hpn⟩)
  have hfst : f ∈ st := by
    rw [cleanup_store_eq_filter] at hf
    exact (List.mem_filter.mp hf).1
  have hpair : (f.name, f.mtime) ∈ sortedInventory st := by
    rw [(sortedInventory_perm st).mem_iff]
    exact List.mem_map.mpr ⟨f, List.mem_filter.mpr ⟨hfst, hall⟩, rfl⟩
  rw [← List.take_append_drop ((sortedInventory st).length - MAX_IMAGES)
    (sortedInventory st)] at hpair
  rcases List.mem_append.mp hpair with htake | hdrop
  · exfalso
    have hin : (f.name, f.mtime) ∈ (cleanup_old_images st removeOk).removed := by
      rw [hrem, hcand]
      exact htake
    exact hfpred _ hin rfl
  · exact hcross r hrtake (f.name, f.mtime) hdrop

/-- C2 amended witness: 101 images with distinct mtimes. -/
theorem eviction_order_amended_witness :
    (nodupNames (mkFiles 101) ∧ MAX_IMAGES < allowedCount (mkFiles 101))
    ∧ (((cleanup_old_images (mkFiles 101) (fun _ => true)).removed).length
        = allowedCount (mkFiles 101) - MAX_IMAGES
      ∧ (∀ r ∈ (cleanup_old_images (mkFiles 101) (fun _ => true)).removed,
          ∀ f ∈ (cleanup_old_images (mkFiles 101) (fun _ => true)).store,
            allowed_file f.name = true → r.2 ≤ f.mtime)
      ∧ allowedCount (cleanup_old_images (mkFiles 101) (fun _ => true)).store
          = MAX_IMAGES) :=
  ⟨⟨by decide, by decide⟩,
   eviction_order_amended (mkFiles 101) (fun _ => true) (by decide) (fun _ => rfl)
     (by decide)⟩

/-! ### C3: robustness of eviction against removal failures -/

/-- 102 images with distinct ascending mtimes: two over-capacity candidates. -/
def failStore : Store := mkFiles 102

/-- A removal oracle under which deleting the single oldest file fails
(locked/already gone) while every other removal would succeed. -/
def failOk : Str → Bool := fun n => !(n == mkName 0)

/-- C3 counterexample: on `failStore` the failed removal of the oldest file
aborts the whole removal loop — the error is logged, but the second
over-capacity candidate (whose own removal would have succeeded) is not
removed, and the store stays at 102 images, above the limit. -/
theorem eviction_failure_abort_counterexample :
    failOk (mkName 1) = true
    ∧ (mkName 1, 1) ∈ evictionCandidates failStore
    ∧ (cleanup_old_images failStore failOk).removed = []
    ∧ (cleanup_old_images failStore failOk).errorLogged = true
    ∧ (⟨mkName 1, 1, 1⟩ : FileEntry) ∈ (cleanup_old_images failStore failOk).store
    ∧ allowedCount (cleanup_old_images failStore failOk).store = 102 := by
  refine ⟨by decide, by decide, by decide, by decide, by decide, by decide⟩

/-- C3 amended: an individual removal failure is caught and logged (the error
flag is set exactly when some candidate's removal fails, and the function
returns normally), and a file whose removal fails is never removed — but the
failure aborts the remainder of the loop instead of being skipped: the entries
removed are the longest prefix of the candidate list on which removal
succeeds, and in particular if the first candidate's removal fails, nothing at
all is removed. -/
theorem eviction_failure_amended (st : Store) (removeOk : Str → Bool) :
    (∀ f ∈ st, removeOk f.name = false → f ∈ (cleanup_old_images st removeOk).store)
    ∧ (∀ c cs, evictionCandidates st = c :: cs → removeOk c.1 = false →
        (cleanup_old_images st removeOk).store = st
        ∧ (cleanup_old_images st removeOk).removed = [])
    ∧ ((cleanup_old_images st removeOk).errorLogged = true
        ↔ ∃ c ∈ evictionCandidates st, removeOk c.1 = false) := by
  refine ⟨?_, ?_, ?_⟩
  · intro f hf hfail
    rw [cleanup_store_eq_filter]
    refine List.mem_filter.mpr ⟨hf, ?_⟩
    simp only [decide_eq_true_eq]
    intro hmem
    rcases List.mem_map.mp hmem with ⟨p, hp, hpn⟩
    have hpok : removeOk p.1 = true := by
      have := List.mem_takeWhile_imp (p := fun q => removeOk q.1)
        (l := evictionCandidates st) hp
      exact this
    rw [hpn, hfail] at hpok
    cases hpok
  · intro c cs hcc hfail
    have hremnil : removedOf st removeOk = [] := by
      unfold removedOf
      rw [hcc, List.takeWhile_cons, if_neg (by simp [hfail])]
    constructor
    · unfold cleanup_old_images
      rw [hremnil]
      simp
    · show removedOf st removeOk = []
      exact hremnil
  · show decide ((removedOf st removeOk).length < (evictionCandidates st).length) = true
        ↔ ∃ c ∈ evictionCandidates st, removeOk c.1 = false
    rw [decide_eq_true_eq]
    constructor
    · intro hlt
      by_contra hno
      push_neg at hno
      have hall : ∀ c ∈ evictionCandidates st, (fun q => removeOk q.1) c = true := by
        intro c hc
        cases hx : removeOk c.1 with
        | false => exact absurd hx (hno c hc)
        | true => exact hx
      have : removedOf st removeOk = evictionCandidates st :=
        List.takeWhile_eq_self_iff.mpr hall
      rw [this] at hlt
      omega
    · rintro ⟨c, hc, hfail⟩
      have hsub : (removedOf st removeOk).Sublist (evictionCandidates st) :=
        List.takeWhile_sublist _
      have hle := hsub.length_le
      rcases Nat.lt_or_ge (removedOf st removeOk).length
          (evictionCandidates st).length with hlt | hge
      · exact hlt
      · exfalso
        have heq : removedOf st removeOk = evictionCandidates st :=
          hsub.eq_of_length (by omega)
        rw [← heq] at hc
        have hc2 : c ∈ (evictionCandidates st).takeWhile (fun q => removeOk q.1) := hc
        have : (fun q : Str × Nat => removeOk q.1) c = true :=
          @List.mem_takeWhile_imp _ (fun q => removeOk q.1) (evictionCandidates st) c hc2
        simp only [hfail] at this
        cases this

/-- C3 amended witness: the `failStore`/`failOk` scenario instantiates the
amended statement; the failed file survives and nothing is removed. -/
theorem eviction_failure_amended_witness :
    (∀ f ∈ failStore, failOk f.name = false →
      f ∈ (cleanup_old_images failStore failOk).store)
    ∧ (∀ c cs, evictionCandidates failStore = c :: cs → failOk c.1 = false →
        (cleanup_old_images failStore failOk).store = failStore
        ∧ (cleanup_old_images failStore failOk).removed = [])
    ∧ ((cleanup_old_images failStore failOk).errorLogged = true
        ↔ ∃ c ∈ evictionCandidates failStore, failOk c.1 = false) :=
  eviction_failure_amended failStore failOk

/-! ### C9: data-URL stripping -/

lemma pySplit_no_sep (sep : Char) (s : Str) (h : sep ∉ s) : pySplit sep s = [s] := by
  induction s with
  | nil => rfl
  | cons c rest ih =>
    have hc : ¬ c = sep := fun hcs => h (hcs ▸ List.mem_cons_self c rest)
    have hrest : sep ∉ rest := fun hm => h (List.mem_cons_of_mem _ hm)
    unfold pySplit
    rw [if_neg hc, ih hrest]

lemma pySplit_first_sep (sep : Char) (pre suf : Str) (hpre : sep ∉ pre)
    (hsuf : sep ∉ suf) : pySplit sep (pre ++ sep :: suf) = [pre, suf] := by
  induction pre with
  | nil =>
    show pySplit sep (sep :: suf) = [[], suf]
    unfold pySplit
    rw [if_pos rfl, pySplit_no_sep sep suf hsuf]
  | cons c pre ih =>
    have hc : ¬ c = sep := fun hcs => hpre (hcs ▸ List.mem_cons_self c pre)
    have hpre2 : sep ∉ pre := fun hm => hpre (List.mem_cons_of_mem _ hm)
    show pySplit sep (c :: (pre ++ sep :: suf)) = [c :: pre, suf]
    unfold pySplit
    rw [if_neg hc, ih hpre2]

/-- C9: Data-URL stripping: a payload that is a data-URL-prefixed base64
string (it starts with `data:image`, its base64 part after the first comma
contains no comma) is stripped up to and including that first comma, and the
bytes `save_image_locally` decodes are exactly the base64 decoding of the part
after the comma; a bare payload (no `data:image` prefix) is decoded as-is. -/
theorem data_url_stripping :
    (∀ pre suf : Str, ',' ∉ pre → ',' ∉ suf →
      dataImagePrefix.isPrefixOf (pre ++ ',' :: suf) = true →
      stripPayload (pre ++ ',' :: suf) = some suf
      ∧ ∀ (st : Store) (b64 : Str → Option Bytes) (pil : Bytes → Option Nat)
          (fn : Str) (mt : Nat) (removeOk : Str → Bool),
          save_image_locally st (pre ++ ',' :: suf) b64 pil fn mt removeOk
            = afterDecode st (b64 suf) pil fn mt removeOk)
    ∧ (∀ s : Str, dataImagePrefix.isPrefixOf s = false →
      stripPayload s = some s
      ∧ ∀ (st : Store) (b64 : Str → Option Bytes) (pil : Bytes → Option Nat)
          (fn : Str) (mt : Nat) (removeOk : Str → Bool),
          save_image_locally st s b64 pil fn mt removeOk
            = afterDecode st (b64 s) pil fn mt removeOk) := by
  constructor
  · intro pre suf hpre hsuf hprefix
    have hstrip : stripPayload (pre ++ ',' :: suf) = some suf := by
      unfold stripPayload
      rw [if_pos hprefix, pySplit_first_sep ',' pre suf hpre hsuf]
      rfl
    refine ⟨hstrip, fun st b64 pil fn mt removeOk => ?_⟩
    unfold save_image_locally
    rw [hstrip]
  · intro s hpref
    have hstrip : stripPayload s = some s := by
      unfold stripPayload
      rw [if_neg (by simp [hpref])]
    refine ⟨hstrip, fun st b64 pil fn mt removeOk => ?_⟩
    unfold save_image_locally
    rw [hstrip]

/-- C9 witness: a concrete data-URL payload and a concrete bare payload. -/
theorem data_url_stripping_witness :
    (((',' : Char) ∉ ("data:image/png;base64".toList)
        ∧ (',' : Char) ∉ ("QUJD".toList)
        ∧ dataImagePrefix.isPrefixOf ("data:image/png;base64".toList
            ++ ',' :: "QUJD".toList) = true)
      ∧ stripPayload ("data:image/png;base64".toList ++ ',' :: "QUJD".toList)
          = some ("QUJD".toList))
    ∧ (dataImagePrefix.isPrefixOf ("QUJD".toList) = false
      ∧ stripPayload ("QUJD".toList) = some ("QUJD".toList)) :=
  ⟨⟨⟨by decide, by decide, by decide⟩,
    (data_url_stripping.1 ("data:image/png;base64".toList) ("QUJD".toList)
      (by decide) (by decide) (by decide)).1⟩,
   ⟨by decide,
    (data_url_stripping.2 ("QUJD".toList) (by decide)).1⟩⟩

/-! ### C10: get/delete are extension-agnostic -/

lemma eq_of_name_mem (st : Store) (h : nodupNames st) (f g : FileEntry)
    (hf : f ∈ st) (hg : g ∈ st) (hname : f.name = g.name) : f = g := by
  induction st with
  | nil => cases hf
  | cons a st ih =>
    unfold nodupNames at h
    rw [List.map_cons, List.nodup_cons] at h
    obtain ⟨ha, h2⟩ := h
    rcases List.mem_cons.mp hf with hfa | hfs
    · rcases List.mem_cons.mp hg with hga | hgs
      · rw [hfa, hga]
      · exfalso
        refine ha ?_
        rw [← hfa, hname]
        exact List.mem_map.mpr ⟨g, hgs, rfl⟩
    · rcases List.mem_cons.mp hg with hga | hgs
      · exfalso
        refine ha ?_
        rw [← hga, ← hname]
        exact List.mem_map.mpr ⟨f, hfs, rfl⟩
      · exact ih h2 hfs hgs

lemma find_of_nodup (st : Store) (f : FileEntry) (h : nodupNames st) (hf : f ∈ st) :
    st.find? (fun g => g.name == f.name) = some f := by
  induction st with
  | nil => cases hf
  | cons g st ih =>
    unfold nodupNames at h
    rw [List.map_cons, List.nodup_cons] at h
    obtain ⟨hg, h2⟩ := h
    rcases List.mem_cons.mp hf with heq | hmem
    · rw [heq]
      simp [List.find?]
    · have hne : (g.name == f.name) = false := by
        rw [beq_eq_false_iff_ne]
        intro hgn
        exact hg (hgn ▸ List.mem_map.mpr ⟨f, hmem, rfl⟩)
      simp [List.find?, hne, ih h2 hmem]

/-- C10 (implicit): get and delete are not restricted to StoredImages: a
safe-named existing file is returned by `get_image` and removed by
`delete_image` even when its extension is outside the allowed set — while
that same file is invisible to the scan backing `list()` and the usage
summary (deleting it leaves the image count unchanged) and is never touched
by eviction, whatever removals succeed. -/
theorem get_delete_extension_agnostic (st : Store) (f : FileEntry)
    (h : nodupNames st) (hf : f ∈ st) (hsafe : unsafeName f.name = false)
    (hext : allowed_file f.name = false) :
    get_image st f.name = (.fileContent f, 200)
    ∧ delete_image st f.name
        = (st.filter (fun g => !(g.name == f.name)), .deleted, 200)
    ∧ f ∉ imagesOf st
    ∧ (get_storage_info (st.filter (fun g => !(g.name == f.name)))).total_images
        = (get_storage_info st).total_images
    ∧ (∀ removeOk : Str → Bool, f ∈ (cleanup_old_images st removeOk).store) := by
  have hsafe2 : ¬ unsafeName f.name = true := by simp [hsafe]
  refine ⟨?_, ?_, ?_, ?_, ?_⟩
  · unfold get_image
    rw [if_neg hsafe2, find_of_nodup st f h hf]
  · unfold delete_image
    rw [if_neg hsafe2,
      if_pos (List.any_eq_true.mpr ⟨f, hf, by simp⟩)]
  · intro hm
    exact absurd (List.mem_filter.mp hm).2 (by simp [hext])
  · have hkeep : (imagesOf st).filter (fun g => !(g.name == f.name)) = imagesOf st := by
      refine List.filter_eq_self.mpr (fun g hg => ?_)
      have hgs : g ∈ st := (List.mem_filter.mp hg).1
      have hga : allowed_file g.name = true := (List.mem_filter.mp hg).2
      simp only [Bool.not_eq_eq_eq_not, Bool.not_true, beq_eq_false_iff_ne, ne_eq]
      intro hgn
      have : g = f := eq_of_name_mem st h g f hgs hf hgn
      rw [this] at hga
      rw [hga] at hext
      cases hext
    show (imagesOf (st.filter (fun g => !(g.name == f.name)))).length
        = (imagesOf st).length
    rw [imagesOf_filter, hkeep]
  · intro removeOk
    rw [cleanup_store_eq_filter]
    refine List.mem_filter.mpr ⟨hf, ?_⟩
    simp only [decide_eq_true_eq]
    intro hmem
    rcases List.mem_map.mp (removed_names_mem st removeOk _ hmem) with ⟨g, hg, hgn⟩
    have hgs : g ∈ st := (List.mem_filter.mp hg).1
    have hga : allowed_file g.name = true := (List.mem_filter.mp hg).2
    have : g = f := eq_of_name_mem st h g f hgs hf hgn
    rw [this] at hga
    rw [hga] at hext
    cases hext

/-- C10 witness: a store holding `x.txt` (extension outside the allowed set)
and one PNG. -/
theorem get_delete_extension_agnostic_witness :
    (nodupNames [(⟨"x.txt".toList, 5, 3⟩ : FileEntry), ⟨"b.png".toList, 1, 1⟩]
      ∧ (⟨"x.txt".toList, 5, 3⟩ : FileEntry)
          ∈ [(⟨"x.txt".toList, 5, 3⟩ : FileEntry), ⟨"b.png".toList, 1, 1⟩]
      ∧ unsafeName ("x.txt".toList) = false
      ∧ allowed_file ("x.txt".toList) = false)
    ∧ (get_image [(⟨"x.txt".toList, 5, 3⟩ : FileEntry), ⟨"b.png".toList, 1, 1⟩]
          ("x.txt".toList) = (.fileContent ⟨"x.txt".toList, 5, 3⟩, 200)
      ∧ delete_image [(⟨"x.txt".toList, 5, 3⟩ : FileEntry), ⟨"b.png".toList, 1, 1⟩]
            ("x.txt".toList)
          = ([(⟨"x.txt".toList, 5, 3⟩ : FileEntry), ⟨"b.png".toList, 1, 1⟩].filter
              (fun g => !(g.name == "x.txt".toList)), .deleted, 200)
      ∧ (⟨"x.txt".toList, 5, 3⟩ : FileEntry)
          ∉ imagesOf [(⟨"x.txt".toList, 5, 3⟩ : FileEntry), ⟨"b.png".toList, 1, 1⟩]
      ∧ (get_storage_info
            ([(⟨"x.txt".toList, 5, 3⟩ : FileEntry), ⟨"b.png".toList, 1, 1⟩].filter
              (fun g => !(g.name == "x.txt".toList)))).total_images
          = (get_storage_info
              [(⟨"x.txt".toList, 5, 3⟩ : FileEntry), ⟨"b.png".toList, 1, 1⟩]).total_images
      ∧ (∀ removeOk : Str → Bool,
          (⟨"x.txt".toList, 5, 3⟩ : FileEntry)
            ∈ (cleanup_old_images
                [(⟨"x.txt".toList, 5, 3⟩ : FileEntry), ⟨"b.png".toList, 1, 1⟩]
                removeOk).store)) :=
  ⟨⟨by decide, by decide, by decide, by decide⟩,
   get_delete_extension_agnostic
     [(⟨"x.txt".toList, 5, 3⟩ : FileEntry), ⟨"b.png".toList, 1, 1⟩]
     (⟨"x.txt".toList, 5, 3⟩ : FileEntry)
     (by decide) (by decide) (by decide) (by decide)⟩

end NexusStore
